import Mathlib

/-!
Verification of the Raft server orchestrator (`raft::server_impl` in
`src/raft/server.cc`).

The development shallowly embeds the parts of the server that client-visible
claims are about: the waiter registry (`notify_waiters`, `drop_waiters`,
`signal_applied`), the applier pipeline (`applier_fiber`'s two branches),
the construction-time configuration check, `set_configuration`,
`read_barrier` together with `wait_for_apply`, the fiber exit handling of
`io_fiber` / `applier_fiber`, and `stepdown`.

Modelling conventions:
* `std::map<index_t, op_status>` becomes a list of `(index, term)` pairs in
  strictly increasing index order (the map iterates keys in order);
  `std::multimap<index_t, promise>` becomes a list of indexes in
  non-decreasing order.
* Setting a promise's value or exception becomes an `Ev` event; functions
  return the list of events they emit, in emission order, alongside the
  updated state.
* C++ `assert` becomes `Option`: `none` models an assertion failure.
* Calls into the protocol FSM and the user state machine are modelled by an
  oracle (`FsmView`) or by events.
-/

namespace RaftServer

/-- Payload of a log entry: `std::variant<command, configuration, log_entry::dummy>`.
Commands are abstracted to a `Nat` payload. -/
inductive EntryData
  | command (c : Nat)
  | configuration
  | dummy
deriving DecidableEq, Repr

/-- A log entry (`raft::log_entry`): term, index and data. -/
structure LogEntry where
  term : Nat
  idx : Nat
  data : EntryData
deriving DecidableEq, Repr

/-- Placeholder entry used for out-of-range accesses that the C++ code never
performs (it indexes `entries[entry_idx - first_idx]` only within bounds). -/
def defaultEntry : LogEntry := ⟨0, 0, EntryData.dummy⟩

/-- A waiter record: the key of the `std::map` entry (the log index) paired
with `op_status::term`, the term the entry was added with. -/
abbrev Waiter := Nat × Nat

/-- Which waiter map an event concerns (`_awaited_commits` / `_awaited_applies`). -/
inductive WaitKind
  | commit
  | apply
deriving DecidableEq, Repr

/-- How a waiter promise is resolved: `set_value()`, `dropped_entry` or
`commit_status_unknown`. -/
inductive Resolution
  | ok
  | droppedEntry
  | commitStatusUnknown
deriving DecidableEq, Repr

/-- Observable actions of the server, in emission order. -/
inductive Ev
  | resolve (k : WaitKind) (idx : Nat) (r : Resolution)
  | smApply (cmds : List Nat)
  | smLoadSnapshot (id : Nat)
  | takeSnapshot (id : Nat)
  | fsmApplySnapshot (idx : Nat) (accepted : Bool)
  | dropSnapshot (id : Nat)
  | signalIdx (idx : Nat)
deriving DecidableEq, Repr

/-- `entries.front()->idx` of `notify_waiters`. -/
def firstIdx (entries : List LogEntry) : Nat := (entries.headD defaultEntry).idx

/-- `entries.back()->idx` (`commit_idx`) of `notify_waiters`. -/
def commitIdx (entries : List LogEntry) : Nat := (entries.getLastD defaultEntry).idx

/-- `entries.back()->term` (`last_committed_term`) of `notify_waiters`. -/
def lastTerm (entries : List LogEntry) : Nat := (entries.getLastD defaultEntry).term

/-- `entries[i - first_idx]->term`: the term of the batch entry looked up for
the waiter at index `i`. -/
def termAt (entries : List LogEntry) (fi i : Nat) : Nat :=
  (entries.getD (i - fi) defaultEntry).term

/-- The batch is a contiguous run of log entries `[first..last]`: the entry at
position `k` has index `first.idx + k`. -/
def batchContiguous (entries : List LogEntry) : Prop :=
  ∀ k, (h : k < entries.length) → (entries.get ⟨k, h⟩).idx = firstIdx entries + k

/-- Main pass of `server_impl::notify_waiters` (server.cc:383-404): walk the
waiter map from the smallest key; stop at the first key above `commit_idx`;
assert `entry_idx >= first_idx` (modelled by `none`); erase the waiter and
fulfill it if its term matches `entries[entry_idx - first_idx]->term`, else
fail it with `dropped_entry`. -/
def notifyMain (k : WaitKind) (ci fi : Nat) (entries : List LogEntry) :
    List Waiter → Option (List Ev × List Waiter)
  | [] => some ([], [])
  | (i, t) :: ws =>
      if ci < i then
        some ([], (i, t) :: ws)
      else if i < fi then
        none
      else
        match notifyMain k ci fi entries ws with
        | none => none
        | some (evs, rem) =>
            some (Ev.resolve k i
                    (if t = termAt entries fi i then Resolution.ok
                     else Resolution.droppedEntry) :: evs,
                  rem)

/-- Second pass of `server_impl::notify_waiters` (server.cc:405-418): walk the
remaining map from the smallest key, failing waiters with `dropped_entry`
while their term is below `last_committed_term`; break at the first waiter
whose term is not. -/
def notifyStale (k : WaitKind) (lastT : Nat) : List Waiter → List Ev × List Waiter
  | [] => ([], [])
  | (i, t) :: ws =>
      if t < lastT then
        let (evs, rem) := notifyStale k lastT ws
        (Ev.resolve k i Resolution.droppedEntry :: evs, rem)
      else
        ([], (i, t) :: ws)

/-- `server_impl::notify_waiters` (server.cc:378-419): main pass then second
pass on one waiter map. `k` records which map the events concern. -/
def notify_waiters (k : WaitKind) (entries : List LogEntry) (ws : List Waiter) :
    Option (List Ev × List Waiter) :=
  match notifyMain k (commitIdx entries) (firstIdx entries) entries ws with
  | none => none
  | some (evs1, rem1) =>
      let (evs2, rem2) := notifyStale k (lastTerm entries) rem1
      some (evs1 ++ evs2, rem2)

/-- The break condition of the `drop` lambda in `server_impl::drop_waiters`:
`idx && it->first > *idx`. -/
def dropStop (idx : Option Nat) (i : Nat) : Bool :=
  match idx with
  | some u => decide (u < i)
  | none => false

/-- The `drop` lambda of `server_impl::drop_waiters` (server.cc:422-433): walk
one waiter map from the smallest key, failing each waiter with
`commit_status_unknown` and erasing it, until the key exceeds `idx` (never,
when `idx` is absent). -/
def dropLoop (k : WaitKind) (idx : Option Nat) : List Waiter → List Ev × List Waiter
  | [] => ([], [])
  | (i, t) :: ws =>
      if dropStop idx i then
        ([], (i, t) :: ws)
      else
        let (evs, rem) := dropLoop k idx ws
        (Ev.resolve k i Resolution.commitStatusUnknown :: evs, rem)

/-- `server_impl::drop_waiters` (server.cc:421-436): drop `_awaited_commits`
first, then `_awaited_applies`. -/
def drop_waiters (idx : Option Nat) (commits applies : List Waiter) :
    List Ev × List Waiter × List Waiter :=
  let (evC, commits') := dropLoop WaitKind.commit idx commits
  let (evA, applies') := dropLoop WaitKind.apply idx applies
  (evC ++ evA, commits', applies')

/-- `server_impl::signal_applied` (server.cc:438-448): resolve and erase every
`_awaited_indexes` entry whose key is at most `_applied_idx`, in key order. -/
def signalLoop (applied : Nat) : List Nat → List Ev × List Nat
  | [] => ([], [])
  | i :: rest =>
      if applied < i then
        ([], i :: rest)
      else
        let (evs, rem) := signalLoop applied rest
        (Ev.signalIdx i :: evs, rem)

/-- The waiter maps, apply-wait multimap and `_applied_idx` of `server_impl`
that the applier fiber reads and writes. -/
structure AppState where
  applied_idx : Nat
  awaited_commits : List Waiter
  awaited_applies : List Waiter
  awaited_indexes : List Nat
deriving DecidableEq, Repr

/-- Oracle for the FSM and state-machine calls made by the applier fiber:
`_fsm->log_last_snapshot_idx()`, the id returned by
`_state_machine->take_snapshot()`, and the result of
`_fsm->apply_snapshot(snp, trailing, true)`. -/
structure FsmView where
  log_last_snapshot_idx : Nat
  take_snapshot_id : Nat
  apply_snapshot_accepts : Bool
deriving DecidableEq, Repr

/-- `boost copy(batch | filtered(holds_alternative<command>) | transformed(get<command>))`:
the commands of a batch, in order, dummies and configurations filtered out. -/
def commandsOf (batch : List LogEntry) : List Nat :=
  batch.filterMap (fun e =>
    match e.data with
    | EntryData.command c => some c
    | _ => none)

/-- The snapshotting trigger of the applier fiber (server.cc:743):
`_applied_idx >= last_snap_idx && _applied_idx - last_snap_idx >= _config.snapshot_threshold`. -/
def snapshotCond (threshold applied lastSnap : Nat) : Bool :=
  decide (lastSnap ≤ applied) && decide (threshold ≤ applied - lastSnap)

/-- A snapshot descriptor (`raft::snapshot_descriptor`), restricted to the
fields the server reads. An `id` of `0` stands for a null snapshot id. -/
structure SnapshotDescriptor where
  id : Nat
  idx : Nat
  term : Nat
deriving DecidableEq, Repr

/-- The state-machine apply call of the applier fiber (server.cc:730-734):
performed only when the command list is non-empty. -/
def batchApplyEv (batch : List LogEntry) : List Ev :=
  if (commandsOf batch).isEmpty then [] else [Ev.smApply (commandsOf batch)]

/-- The snapshotting policy of the applier fiber (server.cc:742-759), run with
`_applied_idx = applied`: when the threshold condition holds, take a snapshot
of the user state machine, hand it to `_fsm->apply_snapshot`, and drop the
new snapshot id when the FSM rejects it. -/
def batchSnapEv (threshold : Nat) (fsm : FsmView) (applied : Nat) : List Ev :=
  if snapshotCond threshold applied fsm.log_last_snapshot_idx then
    [Ev.takeSnapshot fsm.take_snapshot_id,
     Ev.fsmApplySnapshot applied fsm.apply_snapshot_accepts] ++
    (if fsm.apply_snapshot_accepts then []
     else [Ev.dropSnapshot fsm.take_snapshot_id])
  else []

/-- The entry-batch branch of `server_impl::applier_fiber` (server.cc:703-759):
ignore empty batches; notify `_awaited_commits`; assert contiguity
(`last_idx == _applied_idx + batch.size()`, modelled by `none`); apply the
commands (when any); set `_applied_idx = last_idx`; notify `_awaited_applies`;
take a local snapshot when the threshold condition holds, dropping the new
snapshot id when `_fsm->apply_snapshot` rejects it; finally `signal_applied`. -/
def processBatch (threshold : Nat) (fsm : FsmView) (s : AppState)
    (batch : List LogEntry) : Option (AppState × List Ev) :=
  if batch.isEmpty then some (s, [])
  else
    match notify_waiters WaitKind.commit batch s.awaited_commits with
    | none => none
    | some (evC, commits') =>
        if commitIdx batch = s.applied_idx + batch.length then
          match notify_waiters WaitKind.apply batch s.awaited_applies with
          | none => none
          | some (evA, applies') =>
              let (evS, indexes') := signalLoop (commitIdx batch) s.awaited_indexes
              some ({ applied_idx := commitIdx batch,
                      awaited_commits := commits',
                      awaited_applies := applies',
                      awaited_indexes := indexes' },
                    evC ++ batchApplyEv batch ++ evA ++
                      batchSnapEv threshold fsm (commitIdx batch) ++ evS)
        else none

/-- The snapshot branch of `server_impl::applier_fiber` (server.cc:760-769)
followed by `signal_applied` (server.cc:770): assert `snp.idx >= _applied_idx`
(modelled by `none`); load the snapshot into the state machine;
`drop_waiters(snp.idx)`; set `_applied_idx = snp.idx`; `signal_applied`. -/
def processSnapshot (s : AppState) (snp : SnapshotDescriptor) :
    Option (AppState × List Ev) :=
  if s.applied_idx ≤ snp.idx then
    let (evD, commits', applies') :=
      drop_waiters (some snp.idx) s.awaited_commits s.awaited_applies
    let (evS, indexes') := signalLoop snp.idx s.awaited_indexes
    some ({ applied_idx := snp.idx,
            awaited_commits := commits',
            awaited_applies := applies',
            awaited_indexes := indexes' },
          Ev.smLoadSnapshot snp.id :: (evD ++ evS))
  else none

/-- One item popped from `_apply_entries`: a committed entry batch or a
snapshot descriptor. -/
inductive ApplyItem
  | entries (batch : List LogEntry)
  | snp (d : SnapshotDescriptor)
deriving DecidableEq, Repr

/-- One iteration of `server_impl::applier_fiber` on a dequeued item. -/
def applierStep (threshold : Nat) (fsm : FsmView) (s : AppState) :
    ApplyItem → Option (AppState × List Ev)
  | ApplyItem.entries batch => processBatch threshold fsm s batch
  | ApplyItem.snp d => processSnapshot s d

/-- Seeding of `_applied_idx` in `server_impl::start` (server.cc:283-287):
`0`, overwritten with `snapshot.idx` when the loaded descriptor has an id. -/
def startAppliedIdx (snapshot : SnapshotDescriptor) : Nat :=
  if snapshot.id ≠ 0 then snapshot.idx else 0

/-- `server::configuration` as read by the constructor. -/
structure ServerConfiguration where
  append_request_threshold : Nat
  max_log_size : Nat
  snapshot_threshold : Nat
  snapshot_trailing : Nat
  enable_prevoting : Bool
deriving DecidableEq, Repr

/-- Result of the construction-time configuration check. -/
inductive ConfigCheck
  | ok
  | configError (msg : String)
deriving DecidableEq, Repr

/-- The validation in `server_impl::server_impl` (server.cc:264-266):
`if (_config.snapshot_threshold > _config.max_log_size) throw config_error(...)`. -/
def server_impl_check_config (c : ServerConfiguration) : ConfigCheck :=
  if c.snapshot_threshold > c.max_log_size then
    ConfigCheck.configError "snapshot_threshold has to be smaller than max_log_size"
  else ConfigCheck.ok

/-- Modelled from the spec: `raft::configuration::diff` lives in the FSM
headers, which are not part of this source file. Following the spec
("compute diff against current cluster configuration") and mirroring
`diff_address_sets` of this file (server.cc:507-520): joining members are
those of the new set absent from the current configuration, leaving members
are current ones absent from the new set. Server addresses are abstracted to
their ids. -/
def configuration_diff (cfgCurrent cnew : List Nat) : List Nat × List Nat :=
  (cnew.filter (fun s => !cfgCurrent.contains s),
   cfgCurrent.filter (fun s => !cnew.contains s))

/-- `wait_type` of `server::add_entry`. -/
inductive WaitType
  | committed
  | applied
deriving DecidableEq, Repr

/-- A log-entry submission performed by `set_configuration`; the list of
actions is in execution order, each awaited before the next starts. -/
inductive ConfigAction
  | addEntry (d : EntryData) (w : WaitType)
deriving DecidableEq, Repr

/-- `server_impl::set_configuration` (server.cc:921-942): diff the new set
against the current cluster configuration; return immediately when the diff
is empty; otherwise submit a configuration entry with `wait_type::committed`
and, after that wait resolves, a dummy entry with `wait_type::committed`,
returning after the second wait. -/
def set_configuration (cfgCurrent cnew : List Nat) : List ConfigAction :=
  let (joining, leaving) := configuration_diff cfgCurrent cnew
  if joining.length = 0 ∧ leaving.length = 0 then []
  else
    [ConfigAction.addEntry EntryData.configuration WaitType.committed,
     ConfigAction.addEntry EntryData.dummy WaitType.committed]

/-- Reply of `get_read_idx` in `read_barrier` (server.cc:812-818):
`std::monostate` (not ready), `not_a_leader` with a hint, or an index. -/
inductive ReadBarrierReply
  | notReady
  | notALeader (hint : Nat)
  | success (idx : Nat)
deriving DecidableEq, Repr

/-- Oracle input consumed by one iteration of the `read_barrier` loop: the
leader learnt by `wait_for_leader`, or the pair of `_applied_idx` read just
before `get_read_idx` and the reply. Server ids are abstracted to `Nat`,
with `0` the null id. -/
inductive RBInput
  | leaderElected (l : Nat)
  | rpcReply (applied : Nat) (r : ReadBarrierReply)
deriving DecidableEq, Repr

/-- Awaited operations of `read_barrier`, in order. `waitApply i` stands for
`wait_for_apply(i)`: wait until `_applied_idx >= i`. -/
inductive RBEvent
  | waitForLeader
  | queryReadIdx (leader : Nat)
  | waitApply (idx : Nat)
deriving DecidableEq, Repr

/-- The retry loop of `server_impl::read_barrier` (server.cc:826-846), driven
by an oracle list (an empty or ill-typed oracle ends the run with no result):
while `read_idx` is null, wait for a leader when none is known; otherwise
record `applied = _applied_idx`, ask the leader for a read index, and (c) on
not-ready wait for `applied + 1` to be applied and retry, (d) on
`not_a_leader` retry against the hinted leader, (e) on an index exit the
loop. -/
def read_barrier_loop : List RBInput → Nat → List RBEvent × Option Nat
  | [], _ => ([], none)
  | inp :: rest, leader =>
      if leader = 0 then
        match inp with
        | RBInput.leaderElected l =>
            let (evs, r) := read_barrier_loop rest l
            (RBEvent.waitForLeader :: evs, r)
        | _ => ([], none)
      else
        match inp with
        | RBInput.rpcReply applied reply =>
            match reply with
            | ReadBarrierReply.notReady =>
                let (evs, r) := read_barrier_loop rest leader
                (RBEvent.queryReadIdx leader :: RBEvent.waitApply (applied + 1) :: evs, r)
            | ReadBarrierReply.notALeader h =>
                let (evs, r) := read_barrier_loop rest h
                (RBEvent.queryReadIdx leader :: evs, r)
            | ReadBarrierReply.success idx =>
                if idx = 0 then
                  let (evs, r) := read_barrier_loop rest leader
                  (RBEvent.queryReadIdx leader :: evs, r)
                else
                  ([RBEvent.queryReadIdx leader], some idx)
        | _ => ([], none)

/-- `server_impl::read_barrier` (server.cc:820-850): run the loop from the
initially known leader, then `co_await wait_for_apply(read_idx)`. -/
def read_barrier (inputs : List RBInput) (leader0 : Nat) :
    List RBEvent × Option Nat :=
  match read_barrier_loop inputs leader0 with
  | (evs, some idx) => (evs ++ [RBEvent.waitApply idx], some idx)
  | (evs, none) => (evs, none)

/-- `server_impl::wait_for_apply` (server.cc:784-791): returns `true` when it
must block, i.e. when `idx > _applied_idx` and a promise is registered in
`_awaited_indexes`; otherwise it completes immediately. -/
def wait_for_apply_blocks (applied idx : Nat) : Bool :=
  decide (applied < idx)

/-- How `io_fiber` (and `applier_fiber`) can leave its `while (true)` loop:
one of the two stop sentinels, or any other exception (from persistence or
the FSM), abstracted to a numeric payload. -/
inductive FiberExit
  | brokenConditionVariable
  | stopApplyFiber
  | other (e : Nat)
deriving DecidableEq, Repr

/-- Outcome stored in the fiber's future (`_io_status` / `_applier_status`). -/
inductive FiberOutcome
  | completed
  | failed (e : Nat)
deriving DecidableEq, Repr

/-- The exception handling wrapping `io_fiber`'s loop (server.cc:641-648):
`broken_condition_variable` and `stop_apply_fiber` are swallowed silently;
any other exception is logged; in every case the coroutine then reaches
`co_return`, so the future completes without an exception. The `Bool`
records whether an error was logged. -/
def ioFiberHandleExit : FiberExit → FiberOutcome × Bool
  | FiberExit.brokenConditionVariable => (FiberOutcome.completed, false)
  | FiberExit.stopApplyFiber => (FiberOutcome.completed, false)
  | FiberExit.other _ => (FiberOutcome.completed, true)

/-- The exception handling wrapping `applier_fiber`'s loop (server.cc:772-777):
`stop_apply_fiber` is swallowed silently; any other exception is logged; the
coroutine then reaches `co_return`. -/
def applierFiberHandleExit : FiberExit → FiberOutcome × Bool
  | FiberExit.stopApplyFiber => (FiberOutcome.completed, false)
  | FiberExit.other _ => (FiberOutcome.completed, true)
  | FiberExit.brokenConditionVariable => (FiberOutcome.completed, true)

/-- The join in `server_impl::abort` (server.cc:879-880):
`when_all_succeed(_io_status, _applier_status, ...)` surfaces an exception to
the caller exactly when one of the joined futures failed. -/
def abortJoinSurfaces (io applier : FiberOutcome) : Bool :=
  match io, applier with
  | FiberOutcome.completed, FiberOutcome.completed => false
  | _, _ => true

/-- The `server_impl` state read and written by `stepdown`: whether
`_stepdown_promise` is engaged. -/
structure StepdownState where
  stepdown_pending : Bool
deriving DecidableEq, Repr

/-- Immediate result of a `stepdown` call. -/
inductive StepdownOutcome
  | logicError
  | fsmException (e : Nat)
  | waitingOnPromise
deriving DecidableEq, Repr

/-- `server_impl::stepdown` (server.cc:1074-1085): fail with a logic error
when a stepdown is already in progress; otherwise call
`_fsm->transfer_leadership` (modelled by the oracle `fsmThrows`), propagating
its exception without engaging `_stepdown_promise`; on success engage the
promise and return its future. The returned `Bool` records whether
`transfer_leadership` was invoked. -/
def stepdown (s : StepdownState) (fsmThrows : Option Nat) :
    StepdownOutcome × StepdownState × Bool :=
  if s.stepdown_pending then
    (StepdownOutcome.logicError, s, false)
  else
    match fsmThrows with
    | some e => (StepdownOutcome.fsmException e, { stepdown_pending := false }, true)
    | none => (StepdownOutcome.waitingOnPromise, { stepdown_pending := true }, true)

/-! ### Characterizations of the walk-and-break loops -/

/-- The event emitted by the main pass for the waiter `w`. -/
def mainEv (k : WaitKind) (fi : Nat) (entries : List LogEntry) (w : Waiter) : Ev :=
  Ev.resolve k w.1
    (if w.2 = termAt entries fi w.1 then Resolution.ok else Resolution.droppedEntry)

theorem notifyMain_eq (k : WaitKind) (ci fi : Nat) (entries : List LogEntry)
    (ws : List Waiter) (hmin : ∀ w ∈ ws, fi ≤ w.1) :
    notifyMain k ci fi entries ws =
      some ((ws.takeWhile fun w => decide (w.1 ≤ ci)).map (mainEv k fi entries),
            ws.dropWhile fun w => decide (w.1 ≤ ci)) := by
  induction ws with
  | nil => rfl
  | cons w ws ih =>
      obtain ⟨i, t⟩ := w
      have hfi : fi ≤ i := hmin (i, t) (List.mem_cons_self _ _)
      have ih' := ih (fun x hx => hmin x (List.mem_cons_of_mem _ hx))
      by_cases hci : ci < i
      · have h1 : ¬ (i ≤ ci) := by omega
        simp [notifyMain, hci, List.takeWhile_cons, List.dropWhile_cons, h1]
      · have h1 : i ≤ ci := by omega
        have h2 : ¬ (i < fi) := by omega
        simp [notifyMain, hci, h2, ih', List.takeWhile_cons, List.dropWhile_cons, h1, mainEv]

theorem notifyStale_eq (k : WaitKind) (lastT : Nat) (ws : List Waiter) :
    notifyStale k lastT ws =
      ((ws.takeWhile fun w => decide (w.2 < lastT)).map
         (fun w => Ev.resolve k w.1 Resolution.droppedEntry),
       ws.dropWhile fun w => decide (w.2 < lastT)) := by
  induction ws with
  | nil => rfl
  | cons w ws ih =>
      obtain ⟨i, t⟩ := w
      by_cases h : t < lastT
      · simp [notifyStale, h, List.takeWhile_cons, List.dropWhile_cons, ih]
      · simp [notifyStale, h, List.takeWhile_cons, List.dropWhile_cons]

theorem notify_waiters_eq (k : WaitKind) (entries : List LogEntry)
    (ws : List Waiter) (hmin : ∀ w ∈ ws, firstIdx entries ≤ w.1) :
    notify_waiters k entries ws =
      some ((ws.takeWhile fun w => decide (w.1 ≤ commitIdx entries)).map
               (mainEv k (firstIdx entries) entries) ++
            (((ws.dropWhile fun w => decide (w.1 ≤ commitIdx entries)).takeWhile
               fun w => decide (w.2 < lastTerm entries)).map
               (fun w => Ev.resolve k w.1 Resolution.droppedEntry)),
            ((ws.dropWhile fun w => decide (w.1 ≤ commitIdx entries)).dropWhile
               fun w => decide (w.2 < lastTerm entries))) := by
  simp [notify_waiters, notifyMain_eq k _ _ entries ws hmin, notifyStale_eq]

theorem dropLoop_eq_some (k : WaitKind) (u : Nat) (ws : List Waiter) :
    dropLoop k (some u) ws =
      ((ws.takeWhile fun w => decide (w.1 ≤ u)).map
         (fun w => Ev.resolve k w.1 Resolution.commitStatusUnknown),
       ws.dropWhile fun w => decide (w.1 ≤ u)) := by
  induction ws with
  | nil => rfl
  | cons w ws ih =>
      obtain ⟨i, t⟩ := w
      by_cases h : u < i
      · have h1 : ¬ (i ≤ u) := by omega
        simp [dropLoop, dropStop, h, List.takeWhile_cons, List.dropWhile_cons, h1]
      · have h1 : i ≤ u := by omega
        simp [dropLoop, dropStop, h, List.takeWhile_cons, List.dropWhile_cons, h1, ih]

theorem dropLoop_eq_none (k : WaitKind) (ws : List Waiter) :
    dropLoop k none ws =
      (ws.map (fun w => Ev.resolve k w.1 Resolution.commitStatusUnknown), []) := by
  induction ws with
  | nil => rfl
  | cons w ws ih =>
      obtain ⟨i, t⟩ := w
      simp [dropLoop, dropStop, ih]

theorem signalLoop_eq (a : Nat) (l : List Nat) :
    signalLoop a l =
      ((l.takeWhile fun i => decide (i ≤ a)).map Ev.signalIdx,
       l.dropWhile fun i => decide (i ≤ a)) := by
  induction l with
  | nil => rfl
  | cons i l ih =>
      by_cases h : a < i
      · have h1 : ¬ (i ≤ a) := by omega
        simp [signalLoop, h, List.takeWhile_cons, List.dropWhile_cons, h1]
      · have h1 : i ≤ a := by omega
        simp [signalLoop, h, List.takeWhile_cons, List.dropWhile_cons, h1, ih]

/-! ### Membership in takeWhile/dropWhile splits of sorted lists -/

/-- Waiter maps are `std::map`s: their list renderings have strictly
increasing keys. -/
def SortedKeys (ws : List Waiter) : Prop :=
  ws.Pairwise (fun a b => a.1 < b.1)

theorem mem_takeWhile_le_of_sorted {c : Nat} {ws : List Waiter}
    (hs : SortedKeys ws) {w : Waiter} (hw : w ∈ ws) (h : w.1 ≤ c) :
    w ∈ ws.takeWhile fun x => decide (x.1 ≤ c) := by
  induction ws with
  | nil => cases hw
  | cons a l ih =>
      rw [SortedKeys, List.pairwise_cons] at hs
      rcases List.mem_cons.1 hw with rfl | hw'
      · simp [List.takeWhile_cons, h]
      · have ha : a.1 < w.1 := hs.1 w hw'
        have ha' : a.1 ≤ c := by omega
        simp only [List.takeWhile_cons, decide_eq_true_eq, ha', if_pos]
        exact List.mem_cons_of_mem _ (ih hs.2 hw')

theorem mem_dropWhile_le_gt {c : Nat} {ws : List Waiter}
    (hs : SortedKeys ws) {w : Waiter}
    (hw : w ∈ ws.dropWhile fun x => decide (x.1 ≤ c)) : c < w.1 := by
  induction ws with
  | nil => cases hw
  | cons a l ih =>
      rw [SortedKeys, List.pairwise_cons] at hs
      by_cases ha : a.1 ≤ c
      · rw [List.dropWhile_cons] at hw
        simp only [decide_eq_true_eq, ha, if_pos] at hw
        exact ih hs.2 hw
      · rw [List.dropWhile_cons] at hw
        simp only [decide_eq_true_eq, ha, if_neg, not_false_iff] at hw
        rcases List.mem_cons.1 hw with rfl | hw'
        · omega
        · have := hs.1 w hw'
          omega

theorem mem_dropWhile_le_of_sorted {c : Nat} {ws : List Waiter}
    (hs : SortedKeys ws) {w : Waiter} (hw : w ∈ ws) (h : c < w.1) :
    w ∈ ws.dropWhile fun x => decide (x.1 ≤ c) := by
  induction ws with
  | nil => cases hw
  | cons a l ih =>
      rw [SortedKeys, List.pairwise_cons] at hs
      by_cases ha : a.1 ≤ c
      · rw [List.dropWhile_cons]
        simp only [decide_eq_true_eq, ha, if_pos]
        rcases List.mem_cons.1 hw with rfl | hw'
        · omega
        · exact ih hs.2 hw'
      · rw [List.dropWhile_cons]
        simp only [decide_eq_true_eq, ha, if_neg, not_false_iff]
        exact hw

/-- In a strictly key-sorted list, elements are determined by their keys. -/
theorem key_inj_of_sorted {ws : List Waiter} (hs : SortedKeys ws)
    {x y : Waiter} (hx : x ∈ ws) (hy : y ∈ ws) (h : x.1 = y.1) : x = y := by
  induction ws with
  | nil => cases hx
  | cons a l ih =>
      rw [SortedKeys, List.pairwise_cons] at hs
      rcases List.mem_cons.1 hx with rfl | hx' <;>
        rcases List.mem_cons.1 hy with rfl | hy'
      · rfl
      · have := hs.1 y hy'; omega
      · have := hs.1 x hx'; omega
      · exact ih hs.2 hx' hy'

theorem sortedKeys_nodup {ws : List Waiter} (hs : SortedKeys ws) : ws.Nodup :=
  hs.imp (fun h => by intro he; subst he; omega)

/-- Sorted index lists (`std::multimap` keys): non-decreasing. -/
def SortedIdx (l : List Nat) : Prop := l.Pairwise (· ≤ ·)

theorem mem_takeWhile_le_of_sortedIdx {c : Nat} {l : List Nat}
    (hs : SortedIdx l) {i : Nat} (hi : i ∈ l) (h : i ≤ c) :
    i ∈ l.takeWhile fun j => decide (j ≤ c) := by
  induction l with
  | nil => cases hi
  | cons a l ih =>
      rw [SortedIdx, List.pairwise_cons] at hs
      rcases List.mem_cons.1 hi with rfl | hi'
      · simp [List.takeWhile_cons, h]
      · have ha : a ≤ i := hs.1 i hi'
        have ha' : a ≤ c := by omega
        simp only [List.takeWhile_cons, decide_eq_true_eq, ha', if_pos]
        exact List.mem_cons_of_mem _ (ih hs.2 hi')

theorem mem_dropWhile_le_gt_idx {c : Nat} {l : List Nat}
    (hs : SortedIdx l) {i : Nat}
    (hi : i ∈ l.dropWhile fun j => decide (j ≤ c)) : c < i := by
  induction l with
  | nil => cases hi
  | cons a l ih =>
      rw [SortedIdx, List.pairwise_cons] at hs
      by_cases ha : a ≤ c
      · rw [List.dropWhile_cons] at hi
        simp only [decide_eq_true_eq, ha, if_pos] at hi
        exact ih hs.2 hi
      · rw [List.dropWhile_cons] at hi
        simp only [decide_eq_true_eq, ha, if_neg, not_false_iff] at hi
        rcases List.mem_cons.1 hi with rfl | hi'
        · omega
        · have := hs.1 i hi'
          omega

/-! ### Shape of the events emitted by each loop -/

theorem notifyMain_events_shape {k : WaitKind} {ci fi : Nat}
    {entries : List LogEntry} {ws : List Waiter} {evs : List Ev} {rem : List Waiter}
    (h : notifyMain k ci fi entries ws = some (evs, rem)) :
    ∀ e ∈ evs, ∃ i r, e = Ev.resolve k i r := by
  induction ws generalizing evs rem with
  | nil =>
      rw [notifyMain] at h
      cases h
      intro e he; cases he
  | cons w ws ih =>
      obtain ⟨i, t⟩ := w
      rw [notifyMain] at h
      by_cases hci : ci < i
      · rw [if_pos hci] at h
        cases h
        intro e he; cases he
      · rw [if_neg hci] at h
        by_cases hfi : i < fi
        · rw [if_pos hfi] at h; cases h
        · rw [if_neg hfi] at h
          cases hrec : notifyMain k ci fi entries ws with
          | none => rw [hrec] at h; cases h
          | some p =>
              obtain ⟨evs', rem'⟩ := p
              rw [hrec] at h
              cases h
              intro e he
              rcases List.mem_cons.1 he with rfl | he'
              · exact ⟨i, _, rfl⟩
              · exact ih hrec e he'

theorem notify_waiters_events_shape {k : WaitKind} {entries : List LogEntry}
    {ws : List Waiter} {evs : List Ev} {rem : List Waiter}
    (h : notify_waiters k entries ws = some (evs, rem)) :
    ∀ e ∈ evs, ∃ i r, e = Ev.resolve k i r := by
  cases hrec : notifyMain k (commitIdx entries) (firstIdx entries) entries ws with
  | none => rw [notify_waiters, hrec] at h; cases h
  | some p =>
      obtain ⟨evs1, rem1⟩ := p
      rw [notify_waiters] at h
      simp only [hrec, notifyStale_eq, Option.some.injEq, Prod.mk.injEq] at h
      obtain ⟨hevs, hrem⟩ := h
      subst hevs
      intro e he
      rcases List.mem_append.1 he with h1 | h2
      · exact notifyMain_events_shape hrec e h1
      · obtain ⟨w, _, rfl⟩ := List.mem_map.1 h2
        exact ⟨w.1, _, rfl⟩

theorem dropLoop_events_shape {k : WaitKind} {idx : Option Nat} {ws : List Waiter}
    {e : Ev} (he : e ∈ (dropLoop k idx ws).1) :
    ∃ i, e = Ev.resolve k i Resolution.commitStatusUnknown := by
  cases idx with
  | none =>
      rw [dropLoop_eq_none] at he
      obtain ⟨w, _, rfl⟩ := List.mem_map.1 he
      exact ⟨w.1, rfl⟩
  | some u =>
      rw [dropLoop_eq_some] at he
      obtain ⟨w, _, rfl⟩ := List.mem_map.1 he
      exact ⟨w.1, rfl⟩

theorem signalLoop_events_shape {a : Nat} {l : List Nat} {e : Ev}
    (he : e ∈ (signalLoop a l).1) : ∃ i, e = Ev.signalIdx i := by
  rw [signalLoop_eq] at he
  obtain ⟨i, _, rfl⟩ := List.mem_map.1 he
  exact ⟨i, rfl⟩

/-- Recognizers for commit- and apply-waiter resolutions. -/
def isCommitResolve : Ev → Bool
  | Ev.resolve WaitKind.commit _ _ => true
  | _ => false

def isApplyResolve : Ev → Bool
  | Ev.resolve WaitKind.apply _ _ => true
  | _ => false

/-- In a trace `A ++ B` where `A` holds no apply-resolution and `B` holds no
commit-resolution, every commit-resolution sits strictly before every
apply-resolution. -/
theorem pos_split {A B : List Ev}
    (hA : ∀ e ∈ A, isApplyResolve e = false)
    (hB : ∀ e ∈ B, isCommitResolve e = false)
    {n m : Nat} {ec ea : Ev}
    (hn : (A ++ B)[n]? = some ec) (hpc : isCommitResolve ec = true)
    (hm : (A ++ B)[m]? = some ea) (hpa : isApplyResolve ea = true) : n < m := by
  have hnA : n < A.length := by
    by_contra hge
    push_neg at hge
    rw [List.getElem?_append_right hge] at hn
    have := hB ec (List.getElem?_mem hn)
    rw [this] at hpc
    cases hpc
  have hmA : A.length ≤ m := by
    by_contra hlt
    push_neg at hlt
    rw [List.getElem?_append, if_pos hlt] at hm
    have := hA ea (List.getElem?_mem hm)
    rw [this] at hpa
    cases hpa
  omega

/-! ### Inversion of the applier branches -/

theorem processBatch_some {threshold : Nat} {fsm : FsmView} {s : AppState}
    {batch : List LogEntry} {s' : AppState} {evs : List Ev}
    (hne : batch.isEmpty = false)
    (h : processBatch threshold fsm s batch = some (s', evs)) :
    ∃ evC commits' evA applies',
      notify_waiters WaitKind.commit batch s.awaited_commits = some (evC, commits') ∧
      notify_waiters WaitKind.apply batch s.awaited_applies = some (evA, applies') ∧
      commitIdx batch = s.applied_idx + batch.length ∧
      s' = ⟨commitIdx batch, commits', applies',
            (signalLoop (commitIdx batch) s.awaited_indexes).2⟩ ∧
      evs = evC ++ batchApplyEv batch ++ evA ++
              batchSnapEv threshold fsm (commitIdx batch) ++
              (signalLoop (commitIdx batch) s.awaited_indexes).1 := by
  rw [processBatch] at h
  rw [hne] at h
  simp only [Bool.false_eq_true, if_false] at h
  cases hC : notify_waiters WaitKind.commit batch s.awaited_commits with
  | none => rw [hC] at h; cases h
  | some pC =>
      obtain ⟨evC, commits'⟩ := pC
      rw [hC] at h
      dsimp only at h
      by_cases hlen : commitIdx batch = s.applied_idx + batch.length
      · rw [if_pos hlen] at h
        cases hA : notify_waiters WaitKind.apply batch s.awaited_applies with
        | none =>
            rw [hA] at h
            cases h
        | some pA =>
            obtain ⟨evA, applies'⟩ := pA
            simp only [hA, Option.some.injEq] at h
            refine ⟨evC, commits', evA, applies', rfl, rfl, hlen, ?_, ?_⟩
            · exact (congrArg Prod.fst h).symm
            · exact (congrArg Prod.snd h).symm
      · rw [if_neg hlen] at h
        cases h

theorem processSnapshot_some {s : AppState} {snp : SnapshotDescriptor}
    {s' : AppState} {evs : List Ev}
    (h : processSnapshot s snp = some (s', evs)) :
    s.applied_idx ≤ snp.idx ∧
    s' = ⟨snp.idx, (dropLoop WaitKind.commit (some snp.idx) s.awaited_commits).2,
          (dropLoop WaitKind.apply (some snp.idx) s.awaited_applies).2,
          (signalLoop snp.idx s.awaited_indexes).2⟩ ∧
    evs = Ev.smLoadSnapshot snp.id ::
          (((dropLoop WaitKind.commit (some snp.idx) s.awaited_commits).1 ++
            (dropLoop WaitKind.apply (some snp.idx) s.awaited_applies).1) ++
           (signalLoop snp.idx s.awaited_indexes).1) := by
  rw [processSnapshot] at h
  by_cases hle : s.applied_idx ≤ snp.idx
  · rw [if_pos hle] at h
    simp only [drop_waiters, Option.some.injEq] at h
    exact ⟨hle, (congrArg Prod.fst h).symm, (congrArg Prod.snd h).symm⟩
  · rw [if_neg hle] at h
    cases h

theorem drop_waiters_eq (idx : Option Nat) (cs asl : List Waiter) :
    drop_waiters idx cs asl =
      ((dropLoop WaitKind.commit idx cs).1 ++ (dropLoop WaitKind.apply idx asl).1,
       (dropLoop WaitKind.commit idx cs).2, (dropLoop WaitKind.apply idx asl).2) :=
  rfl

/-- Every event of the batch branch's trace is a commit resolution, the
state-machine apply, an apply resolution, part of the snapshotting policy,
or an apply-wait signal. -/
theorem batch_evs_mem_cases {threshold : Nat} {fsm : FsmView} {s : AppState}
    {batch : List LogEntry} {s' : AppState} {evs : List Ev}
    (hne : batch.isEmpty = false)
    (h : processBatch threshold fsm s batch = some (s', evs))
    {e : Ev} (he : e ∈ evs) :
    (∃ i r, e = Ev.resolve WaitKind.commit i r) ∨
    e = Ev.smApply (commandsOf batch) ∨
    (∃ i r, e = Ev.resolve WaitKind.apply i r) ∨
    e ∈ batchSnapEv threshold fsm (commitIdx batch) ∨
    (∃ i, e = Ev.signalIdx i) := by
  obtain ⟨evC, commits', evA, applies', hC, hA, -, -, hevs⟩ := processBatch_some hne h
  subst hevs
  rcases List.mem_append.1 he with he | hS
  · rcases List.mem_append.1 he with he | hSnap
    · rcases List.mem_append.1 he with he | hApplyRes
      · rcases List.mem_append.1 he with heC | heApp
        · exact Or.inl (notify_waiters_events_shape hC e heC)
        · rw [batchApplyEv] at heApp
          by_cases hcmd : (commandsOf batch).isEmpty
          · rw [if_pos hcmd] at heApp; cases heApp
          · rw [if_neg hcmd] at heApp
            rcases List.mem_singleton.1 heApp with rfl
            exact Or.inr (Or.inl rfl)
      · exact Or.inr (Or.inr (Or.inl (notify_waiters_events_shape hA e hApplyRes)))
    · exact Or.inr (Or.inr (Or.inr (Or.inl hSnap)))
  · exact Or.inr (Or.inr (Or.inr (Or.inr (signalLoop_events_shape hS))))

/-! ## Claim theorems -/

/-- Claim C2 (code bug): constructing a server whose configuration has
`snapshot_threshold == max_log_size` succeeds — the check in
`server_impl::server_impl` (server.cc:264) throws `config_error` only for
`snapshot_threshold > max_log_size`, although the claim (and the wording of
the error message itself) require `snapshot_threshold < max_log_size`.
Strictly greater values do fail, and strictly smaller ones succeed. -/
theorem server_impl_accepts_threshold_eq_max_log_size :
    server_impl_check_config ⟨1, 5, 5, 2, false⟩ = ConfigCheck.ok ∧
    server_impl_check_config ⟨1, 5, 6, 2, false⟩ =
      ConfigCheck.configError "snapshot_threshold has to be smaller than max_log_size" ∧
    server_impl_check_config ⟨1, 5, 4, 2, false⟩ = ConfigCheck.ok :=
  ⟨rfl, rfl, rfl⟩

/-- Claim C9 (counterexample): when `io_fiber`'s loop is left by a fatal
exception (payload `7`) from persistence or the FSM, the `catch (...)`
clause (server.cc:645-647) merely logs it and the coroutine reaches
`co_return`, so `_io_status` completes without an exception and the join in
`abort()` has nothing to surface — contradicting the claim that the
exception reaches the caller of `abort()` through the joined futures. -/
theorem io_fiber_fatal_not_surfaced :
    ioFiberHandleExit (FiberExit.other 7) = (FiberOutcome.completed, true) ∧
    (ioFiberHandleExit (FiberExit.other 7)).1 ≠ FiberOutcome.failed 7 ∧
    abortJoinSurfaces (ioFiberHandleExit (FiberExit.other 7)).1
      (applierFiberHandleExit (FiberExit.other 7)).1 = false :=
  ⟨rfl, by decide, rfl⟩

/-- Claim C9 (amended): a fatal exception that terminates `io_fiber` or
`applier_fiber` is logged inside the fiber and swallowed: both status
futures complete without an exception, so the join in `abort()` succeeds
and the exception is not surfaced to `abort()`'s caller. -/
theorem fiber_fatal_logged_not_surfaced (e : Nat) :
    ioFiberHandleExit (FiberExit.other e) = (FiberOutcome.completed, true) ∧
    applierFiberHandleExit (FiberExit.other e) = (FiberOutcome.completed, true) ∧
    abortJoinSurfaces (ioFiberHandleExit (FiberExit.other e)).1
      (applierFiberHandleExit (FiberExit.other e)).1 = false :=
  ⟨rfl, rfl, rfl⟩

/-- Claim C10: calling `stepdown` while a previous stepdown is pending fails
immediately with a logic error, leaves the state unchanged and does not
invoke the FSM's `transfer_leadership`; a first call whose
`transfer_leadership` throws propagates the exception without engaging
`_stepdown_promise`, so a subsequent `stepdown` call proceeds. -/
theorem stepdown_pending_and_throw (s : StepdownState) (e : Nat) (o : Option Nat) :
    (s.stepdown_pending = true →
       stepdown s o = (StepdownOutcome.logicError, s, false)) ∧
    (s.stepdown_pending = false →
       stepdown s (some e) = (StepdownOutcome.fsmException e, ⟨false⟩, true) ∧
       (stepdown (stepdown s (some e)).2.1 none).1 = StepdownOutcome.waitingOnPromise) := by
  obtain ⟨p⟩ := s
  constructor
  · intro h
    cases h
    rfl
  · intro h
    cases h
    exact ⟨rfl, rfl⟩

theorem stepdown_pending_and_throw_witness :
    stepdown ⟨true⟩ none = (StepdownOutcome.logicError, ⟨true⟩, false) ∧
    stepdown ⟨false⟩ (some 3) = (StepdownOutcome.fsmException 3, ⟨false⟩, true) :=
  ⟨(stepdown_pending_and_throw ⟨true⟩ 3 none).1 rfl,
   ((stepdown_pending_and_throw ⟨false⟩ 3 none).2 rfl).1⟩

/-- Claim C7: `set_configuration(new_set)` submits nothing and returns
immediately when the diff against the current cluster configuration is
empty, and otherwise submits a configuration entry with
`wait_type::committed` followed, after that wait resolves, by a dummy entry
with `wait_type::committed`, returning after the second wait. -/
theorem set_configuration_actions (cur cnew : List Nat) :
    (configuration_diff cur cnew = ([], []) → set_configuration cur cnew = []) ∧
    (configuration_diff cur cnew ≠ ([], []) →
       set_configuration cur cnew =
         [ConfigAction.addEntry EntryData.configuration WaitType.committed,
          ConfigAction.addEntry EntryData.dummy WaitType.committed]) := by
  have heq : set_configuration cur cnew =
      if (configuration_diff cur cnew).1.length = 0 ∧
         (configuration_diff cur cnew).2.length = 0 then []
      else [ConfigAction.addEntry EntryData.configuration WaitType.committed,
            ConfigAction.addEntry EntryData.dummy WaitType.committed] := rfl
  constructor
  · intro h
    rw [heq, h]
    simp
  · intro h
    rw [heq, if_neg]
    rintro ⟨hj, hl⟩
    rw [List.length_eq_zero] at hj hl
    exact h (Prod.ext_iff.mpr ⟨hj, hl⟩)

theorem set_configuration_actions_witness :
    set_configuration [1, 2] [1, 2] = [] ∧
    set_configuration [1, 2] [1, 2, 3] =
      [ConfigAction.addEntry EntryData.configuration WaitType.committed,
       ConfigAction.addEntry EntryData.dummy WaitType.committed] :=
  ⟨(set_configuration_actions [1, 2] [1, 2]).1 (by decide),
   (set_configuration_actions [1, 2] [1, 2, 3]).2 (by decide)⟩

/-- Claim C3: `_applied_idx` is monotonically non-decreasing: seeded in
`start` from the loaded snapshot (`0` when none), it advances to the last
index of each applied committed batch (the asserted contiguity
`last_idx == _applied_idx + batch.size()` holding), and is set to `snp.idx`
when a snapshot is applied, where the asserted `snp.idx >= _applied_idx`
holds beforehand; no applier operation decreases it. -/
theorem applied_idx_monotone (threshold : Nat) (fsm : FsmView) (s : AppState)
    (item : ApplyItem) (s' : AppState) (evs : List Ev)
    (h : applierStep threshold fsm s item = some (s', evs)) :
    s.applied_idx ≤ s'.applied_idx ∧
    (∀ batch, item = ApplyItem.entries batch → batch.isEmpty = false →
       s'.applied_idx = commitIdx batch) ∧
    (∀ snp, item = ApplyItem.snp snp →
       s.applied_idx ≤ snp.idx ∧ s'.applied_idx = snp.idx) := by
  cases item with
  | entries batch =>
      rw [applierStep] at h
      by_cases hemp : batch.isEmpty
      · rw [processBatch, if_pos hemp] at h
        obtain rfl : s = s' := congrArg Prod.fst (Option.some.inj h)
        refine ⟨Nat.le_refl _, ?_, ?_⟩
        · intro b hb hbne
          obtain rfl : batch = b := ApplyItem.entries.inj hb
          rw [hemp] at hbne
          cases hbne
        · intro snp hsnp
          cases hsnp
      · have hne : batch.isEmpty = false := by
          cases hb : batch.isEmpty
          · rfl
          · exact absurd hb hemp
        obtain ⟨evC, commits', evA, applies', -, -, hlen, hs', -⟩ :=
          processBatch_some hne h
        have hlenpos : 0 < batch.length := by
          cases batch with
          | nil => cases hne
          | cons a l => exact Nat.succ_pos _
        refine ⟨?_, ?_, ?_⟩
        · rw [hs']
          dsimp only
          omega
        · intro b hb hbne
          obtain rfl : batch = b := ApplyItem.entries.inj hb
          rw [hs']
        · intro snp hsnp
          cases hsnp
  | snp d =>
      rw [applierStep] at h
      obtain ⟨hle, hs', -⟩ := processSnapshot_some h
      refine ⟨?_, ?_, ?_⟩
      · rw [hs']
        exact hle
      · intro b hb hbne
        cases hb
      · intro snp hsnp
        obtain rfl : d = snp := ApplyItem.snp.inj hsnp
        rw [hs']
        exact ⟨hle, rfl⟩

theorem applied_idx_monotone_witness :
    applierStep 5 ⟨0, 0, true⟩ ⟨0, [], [], []⟩
        (ApplyItem.entries [⟨1, 1, EntryData.command 7⟩]) =
      some (⟨1, [], [], []⟩, [Ev.smApply [7]]) ∧
    (0 : Nat) ≤ (1 : Nat) := by
  constructor
  · rfl
  · exact (applied_idx_monotone 5 ⟨0, 0, true⟩ ⟨0, [], [], []⟩
      (ApplyItem.entries [⟨1, 1, EntryData.command 7⟩]) ⟨1, [], [], []⟩
      [Ev.smApply [7]] rfl).1

/-- Claim C6: after applying a committed batch the applier takes a local
snapshot if and only if `applied_idx ≥ last_snap` and
`applied_idx − last_snap ≥ snapshot_threshold`, with
`last_snap = _fsm->log_last_snapshot_idx()`; when the FSM rejects the
resulting `apply_snapshot` (a later snapshot already recorded), the new
snapshot id is dropped via the state machine, and when it accepts, the id
is not dropped. -/
theorem snapshot_policy (threshold : Nat) (fsm : FsmView) (s : AppState)
    (batch : List LogEntry) (s' : AppState) (evs : List Ev)
    (hne : batch.isEmpty = false)
    (h : processBatch threshold fsm s batch = some (s', evs)) :
    (Ev.takeSnapshot fsm.take_snapshot_id ∈ evs ↔
       snapshotCond threshold s'.applied_idx fsm.log_last_snapshot_idx = true) ∧
    (snapshotCond threshold s'.applied_idx fsm.log_last_snapshot_idx = true →
       fsm.apply_snapshot_accepts = false →
       Ev.dropSnapshot fsm.take_snapshot_id ∈ evs) ∧
    (fsm.apply_snapshot_accepts = true →
       Ev.dropSnapshot fsm.take_snapshot_id ∉ evs) := by
  obtain ⟨evC, commits', evA, applies', hC, hA, hlen, hs', hevs⟩ :=
    processBatch_some hne h
  have happlied : s'.applied_idx = commitIdx batch := by rw [hs']
  refine ⟨⟨?_, ?_⟩, ?_, ?_⟩
  · intro hmem
    rw [happlied]
    by_contra hcond
    have hcond' : snapshotCond threshold (commitIdx batch) fsm.log_last_snapshot_idx
        = false := Bool.eq_false_iff.mpr hcond
    rcases batch_evs_mem_cases hne h hmem with ⟨i, r, he⟩ | he | ⟨i, r, he⟩ | he | ⟨i, he⟩
    · simp at he
    · simp at he
    · simp at he
    · rw [batchSnapEv] at he
      simp [hcond'] at he
    · simp at he
  · intro hcond
    rw [happlied] at hcond
    subst hevs
    refine List.mem_append_left _ (List.mem_append_right _ ?_)
    rw [batchSnapEv]
    simp [hcond]
  · intro hcond hrej
    rw [happlied] at hcond
    subst hevs
    refine List.mem_append_left _ (List.mem_append_right _ ?_)
    rw [batchSnapEv]
    simp [hcond, hrej]
  · intro hacc hmem
    rcases batch_evs_mem_cases hne h hmem with ⟨i, r, he⟩ | he | ⟨i, r, he⟩ | he | ⟨i, he⟩
    · simp at he
    · simp at he
    · simp at he
    · rw [batchSnapEv] at he
      cases hcv : snapshotCond threshold (commitIdx batch) fsm.log_last_snapshot_idx
      · simp [hcv] at he
      · simp [hcv, hacc] at he
    · simp at he

theorem snapshot_policy_witness :
    Ev.takeSnapshot 9 ∈ [Ev.takeSnapshot 9, Ev.fsmApplySnapshot 1 false, Ev.dropSnapshot 9] ∧
    Ev.dropSnapshot 9 ∈ [Ev.takeSnapshot 9, Ev.fsmApplySnapshot 1 false, Ev.dropSnapshot 9] := by
  have h := snapshot_policy 0 ⟨0, 9, false⟩ ⟨0, [], [], []⟩
      [⟨1, 1, EntryData.dummy⟩] ⟨1, [], [], []⟩
      [Ev.takeSnapshot 9, Ev.fsmApplySnapshot 1 false, Ev.dropSnapshot 9]
      rfl rfl
  exact ⟨h.1.2 rfl, h.2.1 rfl rfl⟩

theorem batchApplyEv_no_resolve {batch : List LogEntry} {e : Ev}
    (he : e ∈ batchApplyEv batch) :
    isCommitResolve e = false ∧ isApplyResolve e = false := by
  rw [batchApplyEv] at he
  by_cases hc : (commandsOf batch).isEmpty
  · simp [hc] at he
  · simp [hc] at he
    subst he
    exact ⟨rfl, rfl⟩

theorem batchSnapEv_no_resolve {threshold : Nat} {fsm : FsmView} {a : Nat}
    {e : Ev} (he : e ∈ batchSnapEv threshold fsm a) :
    isCommitResolve e = false ∧ isApplyResolve e = false := by
  rw [batchSnapEv] at he
  cases hcv : snapshotCond threshold a fsm.log_last_snapshot_idx
  · simp [hcv] at he
  · cases hacc : fsm.apply_snapshot_accepts
    · simp [hcv, hacc] at he
      rcases he with rfl | rfl | rfl <;> exact ⟨rfl, rfl⟩
    · simp [hcv, hacc] at he
      rcases he with rfl | rfl <;> exact ⟨rfl, rfl⟩

/-- Claim C4: for every index with both a commit-waiter and an apply-waiter
registered, the commit-waiter is resolved strictly before the apply-waiter:
in the trace of any applier-fiber step, every commit-waiter resolution
precedes every apply-waiter resolution (the batch branch notifies
`_awaited_commits` before applying the batch and notifying
`_awaited_applies`; the snapshot branch drops commits before applies), and
in any `drop_waiters` call every commit-waiter failure precedes every
apply-waiter failure. -/
theorem commit_resolved_before_apply :
    (∀ (threshold : Nat) (fsm : FsmView) (s : AppState) (item : ApplyItem)
       (s' : AppState) (evs : List Ev),
       applierStep threshold fsm s item = some (s', evs) →
       ∀ (n m : Nat) (ec ea : Ev), evs[n]? = some ec → isCommitResolve ec = true →
         evs[m]? = some ea → isApplyResolve ea = true → n < m) ∧
    (∀ (idx : Option Nat) (cs asl : List Waiter) (n m : Nat) (ec ea : Ev),
       (drop_waiters idx cs asl).1[n]? = some ec → isCommitResolve ec = true →
       (drop_waiters idx cs asl).1[m]? = some ea → isApplyResolve ea = true →
       n < m) := by
  constructor
  · intro threshold fsm s item s' evs h n m ec ea hn hcr hm har
    cases item with
    | entries batch =>
        rw [applierStep] at h
        by_cases hemp : batch.isEmpty
        · rw [processBatch, if_pos hemp] at h
          obtain rfl : evs = [] := (congrArg Prod.snd (Option.some.inj h)).symm
          simp at hn
        · have hne : batch.isEmpty = false := Bool.eq_false_iff.mpr hemp
          obtain ⟨evC, commits', evA, applies', hC, hA, -, -, hevs⟩ :=
            processBatch_some hne h
          have hsplit : evs = (evC ++ batchApplyEv batch) ++
              (evA ++ (batchSnapEv threshold fsm (commitIdx batch) ++
                (signalLoop (commitIdx batch) s.awaited_indexes).1)) := by
            rw [hevs]
            simp [List.append_assoc]
          rw [hsplit] at hn hm
          refine pos_split ?_ ?_ hn hcr hm har
          · intro e he
            rcases List.mem_append.1 he with he | he
            · obtain ⟨i, r, rfl⟩ := notify_waiters_events_shape hC e he
              rfl
            · exact (batchApplyEv_no_resolve he).2
          · intro e he
            rcases List.mem_append.1 he with he | he
            · obtain ⟨i, r, rfl⟩ := notify_waiters_events_shape hA e he
              rfl
            · rcases List.mem_append.1 he with he | he
              · exact (batchSnapEv_no_resolve he).1
              · obtain ⟨i, rfl⟩ := signalLoop_events_shape he
                rfl
    | snp d =>
        rw [applierStep] at h
        obtain ⟨-, -, hevs⟩ := processSnapshot_some h
        have hsplit : evs = (Ev.smLoadSnapshot d.id ::
            (dropLoop WaitKind.commit (some d.idx) s.awaited_commits).1) ++
            ((dropLoop WaitKind.apply (some d.idx) s.awaited_applies).1 ++
             (signalLoop d.idx s.awaited_indexes).1) := by
          rw [hevs]
          simp [List.append_assoc]
        rw [hsplit] at hn hm
        refine pos_split ?_ ?_ hn hcr hm har
        · intro e he
          rcases List.mem_cons.1 he with rfl | he
          · rfl
          · obtain ⟨i, rfl⟩ := dropLoop_events_shape he
            rfl
        · intro e he
          rcases List.mem_append.1 he with he | he
          · obtain ⟨i, rfl⟩ := dropLoop_events_shape he
            rfl
          · obtain ⟨i, rfl⟩ := signalLoop_events_shape he
            rfl
  · intro idx cs asl n m ec ea hn hcr hm har
    rw [drop_waiters_eq] at hn hm
    dsimp only at hn hm
    refine pos_split ?_ ?_ hn hcr hm har
    · intro e he
      obtain ⟨i, rfl⟩ := dropLoop_events_shape he
      rfl
    · intro e he
      obtain ⟨i, rfl⟩ := dropLoop_events_shape he
      rfl

theorem commit_resolved_before_apply_witness : (0 : Nat) < 1 :=
  commit_resolved_before_apply.2 (some 5) [(1, 1)] [(1, 1)] 0 1
    (Ev.resolve WaitKind.commit 1 Resolution.commitStatusUnknown)
    (Ev.resolve WaitKind.apply 1 Resolution.commitStatusUnknown)
    rfl rfl rfl rfl

/-- Claim C5: when the applier dequeues a snapshot item `snp`, under the
asserted precondition `snp.idx ≥ _applied_idx`, it loads the snapshot into
the user state machine first, fails and removes every commit- and
apply-waiter at index ≤ `snp.idx` with `commit_status_unknown` (waiters
above `snp.idx` stay registered), sets `_applied_idx = snp.idx`, and then
resolves and removes every `_awaited_indexes` entry with key ≤ the new
`_applied_idx`. -/
theorem snapshot_item_processing (s : AppState) (snp : SnapshotDescriptor)
    (s' : AppState) (evs : List Ev)
    (hc : SortedKeys s.awaited_commits) (ha : SortedKeys s.awaited_applies)
    (hi : SortedIdx s.awaited_indexes)
    (h : processSnapshot s snp = some (s', evs)) :
    s.applied_idx ≤ snp.idx ∧
    evs.head? = some (Ev.smLoadSnapshot snp.id) ∧
    (∀ w ∈ s.awaited_commits, w.1 ≤ snp.idx →
       Ev.resolve WaitKind.commit w.1 Resolution.commitStatusUnknown ∈ evs ∧
       w ∉ s'.awaited_commits) ∧
    (∀ w ∈ s.awaited_commits, snp.idx < w.1 → w ∈ s'.awaited_commits) ∧
    (∀ w ∈ s.awaited_applies, w.1 ≤ snp.idx →
       Ev.resolve WaitKind.apply w.1 Resolution.commitStatusUnknown ∈ evs ∧
       w ∉ s'.awaited_applies) ∧
    (∀ w ∈ s.awaited_applies, snp.idx < w.1 → w ∈ s'.awaited_applies) ∧
    s'.applied_idx = snp.idx ∧
    (∀ i ∈ s.awaited_indexes, i ≤ s'.applied_idx →
       Ev.signalIdx i ∈ evs ∧ i ∉ s'.awaited_indexes) := by
  obtain ⟨hle, hs', hevs⟩ := processSnapshot_some h
  subst hs' hevs
  rw [dropLoop_eq_some, dropLoop_eq_some, signalLoop_eq]
  dsimp only
  refine ⟨hle, rfl, ?_, ?_, ?_, ?_, rfl, ?_⟩
  · intro w hw hwle
    constructor
    · refine List.mem_cons_of_mem _ (List.mem_append_left _ (List.mem_append_left _ ?_))
      exact List.mem_map_of_mem _ (mem_takeWhile_le_of_sorted hc hw hwle)
    · intro hmem
      have := mem_dropWhile_le_gt hc hmem
      omega
  · intro w hw hgt
    exact mem_dropWhile_le_of_sorted hc hw hgt
  · intro w hw hwle
    constructor
    · refine List.mem_cons_of_mem _ (List.mem_append_left _ (List.mem_append_right _ ?_))
      exact List.mem_map_of_mem _ (mem_takeWhile_le_of_sorted ha hw hwle)
    · intro hmem
      have := mem_dropWhile_le_gt ha hmem
      omega
  · intro w hw hgt
    exact mem_dropWhile_le_of_sorted ha hw hgt
  · intro i hmem hile
    constructor
    · refine List.mem_cons_of_mem _ (List.mem_append_right _ ?_)
      exact List.mem_map_of_mem _ (mem_takeWhile_le_of_sortedIdx hi hmem hile)
    · intro hmem'
      have := mem_dropWhile_le_gt_idx hi hmem'
      omega

theorem snapshot_item_processing_witness :
    Ev.resolve WaitKind.commit 1 Resolution.commitStatusUnknown ∈
      [Ev.smLoadSnapshot 5, Ev.resolve WaitKind.commit 1 Resolution.commitStatusUnknown,
       Ev.resolve WaitKind.apply 2 Resolution.commitStatusUnknown, Ev.signalIdx 2] ∧
    ((3, 2) : Waiter) ∈ [((3, 2) : Waiter)] := by
  have h := snapshot_item_processing ⟨0, [(1, 1), (3, 2)], [(2, 1)], [2, 3]⟩ ⟨5, 2, 9⟩
      ⟨2, [(3, 2)], [], [3]⟩
      [Ev.smLoadSnapshot 5, Ev.resolve WaitKind.commit 1 Resolution.commitStatusUnknown,
       Ev.resolve WaitKind.apply 2 Resolution.commitStatusUnknown, Ev.signalIdx 2]
      (by simp [SortedKeys]) (by simp [SortedKeys]) (by simp [SortedIdx]) rfl
  exact ⟨(h.2.2.1 (1, 1) (by decide) (by decide)).1,
         h.2.2.2.1 (3, 2) (by decide) (by decide)⟩

/-- Claim C8: in `read_barrier`, (c) a not-ready reply makes the loop wait
for an entry applied strictly past the `_applied_idx` recorded before the
RPC — that recorded value plus one — and then retry against the same leader;
(d) a `not_a_leader(h)` reply makes the loop retry against `h`; (e) on
success the call ends by awaiting `wait_for_apply(read_idx)`, which returns
without blocking iff `read_idx ≤ _applied_idx` and whose registered index is
signalled by `signal_applied` only once `_applied_idx ≥ read_idx`. -/
theorem read_barrier_retry_redirect_success :
    (∀ rest leader applied, leader ≠ 0 →
       read_barrier_loop (RBInput.rpcReply applied ReadBarrierReply.notReady :: rest)
           leader =
         (RBEvent.queryReadIdx leader :: RBEvent.waitApply (applied + 1) ::
            (read_barrier_loop rest leader).1,
          (read_barrier_loop rest leader).2)) ∧
    (∀ rest leader applied hint, leader ≠ 0 →
       read_barrier_loop
           (RBInput.rpcReply applied (ReadBarrierReply.notALeader hint) :: rest)
           leader =
         (RBEvent.queryReadIdx leader :: (read_barrier_loop rest hint).1,
          (read_barrier_loop rest hint).2)) ∧
    (∀ inputs leader0 evs idx, read_barrier inputs leader0 = (evs, some idx) →
       evs.getLast? = some (RBEvent.waitApply idx)) ∧
    (∀ applied idx, wait_for_apply_blocks applied idx = false ↔ idx ≤ applied) ∧
    (∀ applied idx l, Ev.signalIdx idx ∈ (signalLoop applied l).1 → idx ≤ applied) := by
  refine ⟨?_, ?_, ?_, ?_, ?_⟩
  · intro rest leader applied hl
    rw [read_barrier_loop, if_neg hl]
  · intro rest leader applied hint hl
    rw [read_barrier_loop, if_neg hl]
  · intro inputs leader0 evs idx h
    rw [read_barrier] at h
    cases hr : read_barrier_loop inputs leader0 with
    | mk evs0 r =>
        rw [hr] at h
        cases r with
        | none =>
            dsimp only at h
            injection h with h1 h2
            cases h2
        | some i =>
            dsimp only at h
            injection h with h1 h2
            injection h2 with h3
            subst h3
            rw [← h1]
            exact List.getLast?_concat _
  · intro applied idx
    rw [wait_for_apply_blocks]
    simp only [decide_eq_false_iff_not]
    omega
  · intro applied idx l hmem
    rw [signalLoop_eq] at hmem
    obtain ⟨i, hmem', heq⟩ := List.mem_map.1 hmem
    obtain rfl : i = idx := Ev.signalIdx.inj heq
    have := List.mem_takeWhile_imp hmem'
    exact of_decide_eq_true this

theorem read_barrier_retry_redirect_success_witness :
    read_barrier_loop [RBInput.rpcReply 5 ReadBarrierReply.notReady] 2 =
      ([RBEvent.queryReadIdx 2, RBEvent.waitApply 6], none) ∧
    [RBEvent.queryReadIdx 2, RBEvent.waitApply 4].getLast? =
      some (RBEvent.waitApply 4) := by
  constructor
  · rw [read_barrier_retry_redirect_success.1 [] 2 5 (by decide)]
    rfl
  · exact read_barrier_retry_redirect_success.2.2.1
      [RBInput.rpcReply 1 (ReadBarrierReply.success 4)] 2
      [RBEvent.queryReadIdx 2, RBEvent.waitApply 4] 4 rfl

/-- Claim C1 (counterexample): take the committed batch `[(term 3, idx 9)]`
and the pending waiters `{10 ↦ term 3, 11 ↦ term 2}`; every precondition of
the claim holds (non-empty contiguous batch, strictly sorted waiter keys,
smallest pending key `10 ≥ first.idx = 9`). The waiter `(11, 2)` has term
`2 < 3 = last.term`, yet `notify_waiters` emits no event at all and leaves
both waiters registered: its second pass stops at the waiter `(10, 3)`,
whose term is not below `last.term`, before ever reaching `(11, 2)` —
contradicting the claim that after the main pass every remaining waiter
with term strictly below `last.term` is removed and failed. -/
theorem notify_waiters_stale_survivor :
    notify_waiters WaitKind.commit [⟨3, 9, EntryData.dummy⟩] [(10, 3), (11, 2)] =
      some ([], [(10, 3), (11, 2)]) ∧
    ([⟨3, 9, EntryData.dummy⟩] : List LogEntry) ≠ [] ∧
    batchContiguous [⟨3, 9, EntryData.dummy⟩] ∧
    SortedKeys [(10, 3), (11, 2)] ∧
    firstIdx [⟨3, 9, EntryData.dummy⟩] ≤ 10 ∧
    (2 : Nat) < lastTerm [⟨3, 9, EntryData.dummy⟩] := by
  refine ⟨rfl, by decide, ?_, ?_, by decide, by decide⟩
  · intro k hk
    have hk' : k < 1 := hk
    interval_cases k
    rfl
  · simp [SortedKeys]

/-- Claim C1 (amended): for a call to `notify_waiters` with a non-empty
contiguous committed batch `[first..last]` whose pending waiter keys are all
`≥ first.idx` (the map being in strictly increasing key order): every waiter
with key ≤ `last.idx` is removed, fulfilled when its recorded term equals
the term of the batch entry at its index and failed with `dropped_entry`
otherwise; after this pass, the maximal index-ordered front run of the
remaining waiters whose terms are strictly below `last.term` is removed and
failed with `dropped_entry` — the walk stops at the first remaining waiter
whose term is ≥ `last.term`, so later stale-term waiters survive this call —
and no waiter with term ≥ `last.term` and key > `last.idx` is touched. -/
theorem notify_waiters_passes (k : WaitKind) (entries : List LogEntry)
    (ws : List Waiter) (evs : List Ev) (rem : List Waiter)
    (_hne : entries ≠ [])
    (_hcont : batchContiguous entries)
    (hsorted : SortedKeys ws)
    (hmin : ∀ w ∈ ws, firstIdx entries ≤ w.1)
    (h : notify_waiters k entries ws = some (evs, rem)) :
    (∀ w ∈ ws, w.1 ≤ commitIdx entries →
       w ∉ rem ∧
       Ev.resolve k w.1 (if w.2 = termAt entries (firstIdx entries) w.1
                         then Resolution.ok else Resolution.droppedEntry) ∈ evs) ∧
    (∀ w ∈ (ws.dropWhile fun x => decide (x.1 ≤ commitIdx entries)).takeWhile
             (fun x => decide (x.2 < lastTerm entries)),
       w ∉ rem ∧ Ev.resolve k w.1 Resolution.droppedEntry ∈ evs) ∧
    rem = ((ws.dropWhile fun x => decide (x.1 ≤ commitIdx entries)).dropWhile
             fun x => decide (x.2 < lastTerm entries)) ∧
    (∀ w ∈ ws, commitIdx entries < w.1 → lastTerm entries ≤ w.2 →
       w ∈ rem ∧ ∀ r, Ev.resolve k w.1 r ∉ evs) := by
  rw [notify_waiters_eq k entries ws hmin] at h
  obtain ⟨hevs, hrem⟩ := Prod.mk.inj (Option.some.inj h)
  subst hevs hrem
  have hs1 : SortedKeys (ws.dropWhile fun x => decide (x.1 ≤ commitIdx entries)) :=
    List.Pairwise.sublist (List.dropWhile_sublist _) hsorted
  refine ⟨?_, ?_, rfl, ?_⟩
  · intro w hw hwle
    constructor
    · intro hmem
      have hmem1 := (List.dropWhile_sublist
          (fun x : Waiter => decide (x.2 < lastTerm entries))).subset hmem
      have := mem_dropWhile_le_gt hsorted hmem1
      omega
    · refine List.mem_append_left _ ?_
      have := List.mem_map_of_mem (mainEv k (firstIdx entries) entries)
        (mem_takeWhile_le_of_sorted hsorted hw hwle)
      simpa [mainEv] using this
  · intro w hw
    constructor
    · intro hmem
      have hnd : (ws.dropWhile fun x => decide (x.1 ≤ commitIdx entries)).Nodup :=
        sortedKeys_nodup hs1
      rw [← List.takeWhile_append_dropWhile
            (p := fun x : Waiter => decide (x.2 < lastTerm entries))
            (l := ws.dropWhile fun x => decide (x.1 ≤ commitIdx entries))] at hnd
      exact (List.nodup_append.mp hnd).2.2 hw hmem
    · exact List.mem_append_right _ (List.mem_map_of_mem _ hw)
  · intro w hw hgt hterm
    have h1 : w ∈ ws.dropWhile fun x => decide (x.1 ≤ commitIdx entries) :=
      mem_dropWhile_le_of_sorted hsorted hw hgt
    constructor
    · rcases List.mem_append.1 ((List.takeWhile_append_dropWhile
          (p := fun x : Waiter => decide (x.2 < lastTerm entries))
          (l := ws.dropWhile fun x => decide (x.1 ≤ commitIdx entries)) ▸ h1))
        with hin | hin
      · have := List.mem_takeWhile_imp hin
        have := of_decide_eq_true this
        omega
      · exact hin
    · intro r hmem
      rcases List.mem_append.1 hmem with hin | hin
      · obtain ⟨x, hx, hxe⟩ := List.mem_map.1 hin
        simp only [mainEv, Ev.resolve.injEq] at hxe
        obtain ⟨-, hxw, -⟩ := hxe
        have := List.mem_takeWhile_imp hx
        have := of_decide_eq_true this
        omega
      · obtain ⟨x, hx, hxe⟩ := List.mem_map.1 hin
        obtain ⟨-, hxw, -⟩ := Ev.resolve.inj hxe
        have hxws : x ∈ ws :=
          (List.dropWhile_sublist _).subset
            ((List.takeWhile_sublist _).subset hx)
        obtain rfl : x = w := key_inj_of_sorted hsorted hxws hw hxw
        have := List.mem_takeWhile_imp hx
        have := of_decide_eq_true this
        omega

theorem notify_waiters_passes_witness :
    Ev.resolve WaitKind.commit 5 Resolution.ok ∈
      [Ev.resolve WaitKind.commit 5 Resolution.ok] := by
  have h := notify_waiters_passes WaitKind.commit [⟨2, 5, EntryData.command 0⟩]
      [(5, 2)] [Ev.resolve WaitKind.commit 5 Resolution.ok] []
      (by decide)
      (by intro k hk
          have hk' : k < 1 := hk
          interval_cases k
          rfl)
      (by simp [SortedKeys])
      (by decide) rfl
  exact (h.1 (5, 2) (by decide) (by decide)).2

end RaftServer
